import Mathlib

/-!
# Verification of the `blud` fast box-blur kernel

Shallow embedding of `src/fastblur.rs` (a fork of `fastblur`, after the
ivank fast-gaussian-blur article).  The source operates on `&[[u8; CHANNELS]]`
buffers; here a pixel is a `List ℕ` of channel values (each intended `< 256`)
and a buffer is a `List (List ℕ)`.

Modelling conventions:
* `usize`/`isize` arithmetic is carried on `ℕ`/`ℤ`; the subtractions that can
  underflow in the source (`i*width + width - 1`, `i + width*(height-1)`,
  `(blur_radius - height) as isize`) are modelled with the exact two's
  complement semantics of release-mode Rust (wrap modulo `2^64`, then for the
  `as isize` cast a reinterpretation of bit patterns `≥ 2^63` as negative).
* Every slice access in the source goes through `get_unchecked`; the embedding
  makes each access total by returning `Option`, where `none` is the
  out-of-bounds (undefined behaviour) branch.
* `f32` arithmetic is modelled exactly over the rationals, carried on integer
  numerator/denominator pairs.  `iarr = 1/(2r+1)` followed by
  `round(vals as f32 * iarr)` (with the `+12582912.0 / -12582912.0` bias trick,
  which rounds half to even under the default rounding mode) is modelled as
  round-half-to-even of the exact quotient `vals / (2r+1)`; since `2r+1` is
  odd the tie case cannot occur, and for every radius small enough that an
  `f32` product error cannot cross a rounding boundary the two agree bit for
  bit.  The planner's `f32` formulas are likewise modelled exactly; `f32`
  overflow/saturation (reachable only for astronomically large `σ`) is outside
  the model.
-/

/-- Fuel-driven integer square root search: starting from candidate `r`,
climb while `(r+1)^2 ≤ n`.  With fuel `n` this reaches `⌊√n⌋` from 0. -/
def isqrtGo (n : ℕ) : ℕ → ℕ → ℕ
  | 0, r => r
  | fuel + 1, r => if (r + 1) * (r + 1) ≤ n then isqrtGo n fuel (r + 1) else r

/-- `⌊√n⌋` on naturals (kernel-reducible fuel version). -/
def isqrt (n : ℕ) : ℕ := isqrtGo n n 0

/-- Rust `f32::round` (round half away from zero) of the exact rational
`p / q` (`q ≠ 0`), modelled exactly on integers. -/
def rustRoundFrac (p q : ℤ) : ℤ :=
  let p' : ℤ := if q < 0 then -p else p
  let q' : ℤ := if q < 0 then -q else q
  if 0 ≤ p' then (2 * p' + q').fdiv (2 * q')
  else -((2 * (-p') + q').fdiv (2 * q'))

/-- Round half to even of the exact rational `v / d` (`d > 0`): the value of
`round(vals as f32 * iarr)` in `fastblur.rs` line 314 (the `+1.5·2²³` bias
trick under the default FPU rounding mode), modelled exactly. -/
def roundHalfEvenDiv (v d : ℤ) : ℤ :=
  let q := v / d
  let r2 := 2 * (v % d)
  if r2 < d then q else if d < r2 then q + 1 else if q % 2 = 0 then q else q + 1

/-- Rust `as u8` cast from a float that carries an integer value: saturating
conversion to `[0, 255]`. -/
def toU8 (z : ℤ) : ℕ := (max 0 (min 255 z)).toNat

/-- Release-mode `usize` wrap-around of an integer expression (`mod 2^64`). -/
def wrapIdx (n : ℤ) : ℕ := (n % 2 ^ 64).toNat

/-- Reinterpretation of a `usize` bit pattern as `isize` (Rust `as isize`). -/
def usizeAsIsize (n : ℕ) : ℤ := if n < 2 ^ 63 then (n : ℤ) else (n : ℤ) - 2 ^ 64

/-- Per-channel `vals[i] += bb[i]` (the sums `vals` are `isize`, the pixel
channels `u8`). -/
def addPix (vals : List ℤ) (p : List ℕ) : List ℤ :=
  List.zipWith (fun v (c : ℕ) => v + (c : ℤ)) vals p

/-- Per-channel `vals[i] -= bb[i]`. -/
def subPix (vals : List ℤ) (p : List ℕ) : List ℤ :=
  List.zipWith (fun v (c : ℕ) => v - (c : ℤ)) vals p

/-- Per-channel `vals[i] += k * p[i]` (seed and short-line correction terms). -/
def scaleAddPix (vals : List ℤ) (k : ℤ) (p : List ℕ) : List ℤ :=
  List.zipWith (fun v (c : ℕ) => v + k * (c : ℤ)) vals p

/-- Per-channel output pixel `round(vals[i] as f32 * iarr) as u8` with
`iarr = 1/d`, `d = 2·blur_radius + 1`. -/
def outPix (d : ℤ) (vals : List ℤ) : List ℕ :=
  vals.map fun v => toU8 (roundHalfEvenDiv v d)

/-- `C!(buf[i])`: `get_unchecked` modelled as an `Option` read. -/
def getPix (buf : List (List ℕ)) (i : ℕ) : Option (List ℕ) := buf[i]?

/-- `C!(buf[i] = p)`: `get_unchecked_mut` write modelled as an `Option` write. -/
def setPix (buf : List (List ℕ)) (i : ℕ) (p : List ℕ) : Option (List (List ℕ)) :=
  if i < buf.length then some (buf.set i p) else none

/-- The `get_right` / `get_bottom` closures: clamp to `lv` past `lineEnd`. -/
def getRightPix (backbuf : List (List ℕ)) (lv : List ℕ) (lineEnd i : ℕ) :
    Option (List ℕ) :=
  if lineEnd < i then some lv else getPix backbuf i

/-- The `get_left` / `get_top` closures: clamp to `fv` before `lineStart`. -/
def getLeftPix (backbuf : List (List ℕ)) (fv : List ℕ) (lineStart i : ℕ) :
    Option (List ℕ) :=
  if i < lineStart then some fv else getPix backbuf i

/-- Mutable per-line state of a sliding-window pass: the running channel sums
`vals`, the write cursor `ti`, trailing cursor `li`, leading cursor `ri`, and
the buffer being written. -/
structure LState where
  vals : List ℤ
  ti : ℕ
  li : ℕ
  ri : ℕ
  front : List (List ℕ)

/-- Seed loop `for j in 0..n { vals += backbuf[idx + j*stride] }`
(`fastblur.rs` lines 148-153 / 253-258), with the running index made
explicit. -/
def seedLoop (backbuf : List (List ℕ)) (stride : ℕ) :
    ℕ → ℕ → List ℤ → Option (List ℤ)
  | _, 0, vals => some vals
  | idx, n + 1, vals => do
      let bb ← getPix backbuf idx
      seedLoop backbuf stride (idx + stride) n (addPix vals bb)

/-- First output loop (`fastblur.rs` lines 160-171 / 265-276), `n` iterations:
`bb = get_right(ri); ri += stride; vals += bb - fv; front[ti] = out; ti += stride`. -/
def loopA (backbuf : List (List ℕ)) (fv lv : List ℕ) (lineEnd : ℕ) (d : ℤ)
    (stride : ℕ) : ℕ → LState → Option LState
  | 0, s => some s
  | n + 1, s => do
      let bb ← getRightPix backbuf lv lineEnd s.ri
      let vals := subPix (addPix s.vals bb) fv
      let front ← setPix s.front s.ti (outPix d vals)
      loopA backbuf fv lv lineEnd d stride n
        ⟨vals, s.ti + stride, s.li, s.ri + stride, front⟩

/-- Middle output loop (`fastblur.rs` lines 174-188 / 279-293), `n` iterations:
`bb1 = backbuf[ri]; ri += stride; bb2 = backbuf[li]; li += stride;
vals += bb1 - bb2; front[ti] = out; ti += stride`. -/
def loopB (backbuf : List (List ℕ)) (d : ℤ) (stride : ℕ) :
    ℕ → LState → Option LState
  | 0, s => some s
  | n + 1, s => do
      let bb1 ← getPix backbuf s.ri
      let bb2 ← getPix backbuf s.li
      let vals := subPix (addPix s.vals bb1) bb2
      let front ← setPix s.front s.ti (outPix d vals)
      loopB backbuf d stride n
        ⟨vals, s.ti + stride, s.li + stride, s.ri + stride, front⟩

/-- Final output loop (`fastblur.rs` lines 190-202 / 295-307), `n` iterations:
`bb = get_left(li); li += stride; vals += lv - bb; front[ti] = out; ti += stride`. -/
def loopC (backbuf : List (List ℕ)) (fv lv : List ℕ) (lineStart : ℕ) (d : ℤ)
    (stride : ℕ) : ℕ → LState → Option LState
  | 0, s => some s
  | n + 1, s => do
      let bb ← getLeftPix backbuf fv lineStart s.li
      let vals := subPix (addPix s.vals lv) bb
      let front ← setPix s.front s.ti (outPix d vals)
      loopC backbuf fv lv lineStart d stride n
        ⟨vals, s.ti + stride, s.li + stride, s.ri, front⟩

/-- One row of `box_blur_horz` (`fastblur.rs` lines 222-309, loop body for a
fixed row `i`).  Note line 261: the short-line correction multiplier is
`(blur_radius - height) as isize` — `height`, not `width`, with a wrapping
`usize` subtraction. -/
def horzRow (backbuf : List (List ℕ)) (width height r i : ℕ)
    (front : List (List ℕ)) : Option (List (List ℕ)) := do
  let rowStart := i * width
  let rowEnd := wrapIdx ((i : ℤ) * width + width - 1)
  let ti := i * width
  let li := ti
  let ri := ti + r
  let fv ← getPix backbuf rowStart
  let lv ← getPix backbuf rowEnd
  let d : ℤ := 2 * r + 1
  let vals : List ℤ := fv.map fun (c : ℕ) => ((r : ℤ) + 1) * (c : ℤ)
  let vals ← seedLoop backbuf 1 ti (min r width) vals
  let vals :=
    if width < r then
      scaleAddPix vals (usizeAsIsize (wrapIdx ((r : ℤ) - (height : ℤ)))) lv
    else vals
  let s1 ← loopA backbuf fv lv rowEnd d 1 (min width (r + 1)) ⟨vals, ti, li, ri, front⟩
  if r < width then do
    let s2 ← loopB backbuf d 1 ((width - r) - (r + 1)) s1
    let s3 ← loopC backbuf fv lv rowStart d 1 (min (width - r - 1) r) s2
    return s3.front
  else
    return s1.front

/-- `box_blur_horz` (`fastblur.rs` lines 208-310): radius 0 is
`copy_from_slice` (which panics — `none` — on a length mismatch), otherwise
the sliding-window pass over each of the `height` rows. -/
def boxBlurHorz (backbuf frontbuf : List (List ℕ)) (width height r : ℕ) :
    Option (List (List ℕ)) :=
  if r = 0 then
    if frontbuf.length = backbuf.length then some backbuf else none
  else
    (List.range height).foldlM (fun front i => horzRow backbuf width height r i front)
      frontbuf

/-- One column of `box_blur_vert` (`fastblur.rs` lines 117-204, loop body for
a fixed column `i`); stride `width`.  Here the short-line correction
(line 156) correctly uses `height`, the length of the scanned column. -/
def vertCol (backbuf : List (List ℕ)) (width height r i : ℕ)
    (front : List (List ℕ)) : Option (List (List ℕ)) := do
  let colStart := i
  let colEnd := wrapIdx ((i : ℤ) + width * ((height : ℤ) - 1))
  let ti := i
  let li := ti
  let ri := ti + r * width
  let fv ← getPix backbuf colStart
  let lv ← getPix backbuf colEnd
  let d : ℤ := 2 * r + 1
  let vals : List ℤ := fv.map fun (c : ℕ) => ((r : ℤ) + 1) * (c : ℤ)
  let vals ← seedLoop backbuf width ti (min r height) vals
  let vals :=
    if height < r then
      scaleAddPix vals (usizeAsIsize (wrapIdx ((r : ℤ) - (height : ℤ)))) lv
    else vals
  let s1 ← loopA backbuf fv lv colEnd d width (min height (r + 1)) ⟨vals, ti, li, ri, front⟩
  if r < height then do
    let s2 ← loopB backbuf d width ((height - r) - (r + 1)) s1
    let s3 ← loopC backbuf fv lv colStart d width (min (height - r - 1) r) s2
    return s3.front
  else
    return s1.front

/-- `box_blur_vert` (`fastblur.rs` lines 103-205). -/
def boxBlurVert (backbuf frontbuf : List (List ℕ)) (width height r : ℕ) :
    Option (List (List ℕ)) :=
  if r = 0 then
    if frontbuf.length = backbuf.length then some backbuf else none
  else
    (List.range width).foldlM (fun front i => vertCol backbuf width height r i front)
      frontbuf

/-- `create_box_gauss::<N>` (`fastblur.rs` lines 38-72), `f32` arithmetic
modelled exactly over the rationals, computed on numerator/denominator pairs.
Note line 42: the source computes `sqrt(12σ²/N) + 1` — the `+ 1.0` is applied
AFTER the square root. -/
def create_box_gauss (N : ℕ) (sigma : ℚ) : List ℤ :=
  if 0 < sigma then
    -- 12·σ² = num12 / den12 exactly
    let num12 : ℕ := (12 * sigma.num * sigma.num).toNat
    let den12 : ℕ := sigma.den * sigma.den
    -- w_ideal = sqrt(12σ²/N) + 1;  wl = floor(w_ideal) = ⌊√(num12/(den12·N))⌋ + 1
    let D : ℕ := den12 * N
    let wl0 : ℤ := (isqrt (num12 * D) / D : ℕ) + 1
    -- wl ≥ 1 here, so Rust's truncated `%` agrees with `emod`
    let wl : ℤ := if wl0 % 2 = 0 then wl0 - 1 else wl0
    let wu : ℤ := wl + 2
    -- m_ideal = (12σ² − N·wl² − 4N·wl − 3N) / (−4wl − 4), over denominator den12
    let mNum : ℤ := (num12 : ℤ) - (den12 : ℤ) * N * (wl * wl + 4 * wl + 3)
    let mDen : ℤ := (den12 : ℤ) * (-4 * wl - 4)
    let m : ℕ := (rustRoundFrac mNum mDen).toNat
    (List.range N).map fun i => if i < m then wl else wu
  else
    List.replicate N 1

/-- The loop of `gaussian_blur` (`fastblur.rs` lines 31-34): state is the pair
`(backbuf, data)`; each box runs `box_blur_horz(backbuf → data)` then
`box_blur_vert(data → backbuf)` (`box_blur`, lines 75-85). -/
def blurPasses (width height : ℕ) :
    List ℤ → List (List ℕ) × List (List ℕ) → Option (List (List ℕ) × List (List ℕ))
  | [], st => some st
  | b :: rest, (backbuf, data) => do
      let radius := ((b - 1) / 2).toNat
      let data' ← boxBlurHorz backbuf data width height radius
      let backbuf' ← boxBlurVert data' backbuf width height radius
      blurPasses width height rest (backbuf', data')

/-- `gaussian_blur::<CHANNELS>` (`fastblur.rs` lines 22-35): plan the boxes
(`N = CHANNELS`), copy `data` into `backbuf`, run the passes, and return the
caller's buffer `data`. -/
def gaussianBlur (CH : ℕ) (data : List (List ℕ)) (width height : ℕ)
    (sigma : ℚ) : Option (List (List ℕ)) := do
  let boxes := create_box_gauss CH sigma
  let (_, data') ← blurPasses width height boxes (data, data)
  return data'

/-- Modelled from the spec (claim C3's formula): the planner with the ideal
box width computed as `w_ideal = sqrt(12·σ²/N + 1)` — the `+1` INSIDE the
square root, as the spec's algorithm step 2 prescribes.  Identical to
`create_box_gauss` everywhere else. -/
def create_box_gauss_claimC3 (N : ℕ) (sigma : ℚ) : List ℤ :=
  if 0 < sigma then
    let num12 : ℕ := (12 * sigma.num * sigma.num).toNat
    let den12 : ℕ := sigma.den * sigma.den
    let D : ℕ := den12 * N
    -- w_ideal = sqrt(12σ²/N + 1) = sqrt((num12 + D)/D);  wl = floor(w_ideal)
    let wl0 : ℤ := (isqrt ((num12 + D) * D) / D : ℕ)
    let wl : ℤ := if wl0 % 2 = 0 then wl0 - 1 else wl0
    let wu : ℤ := wl + 2
    let mNum : ℤ := (num12 : ℤ) - (den12 : ℤ) * N * (wl * wl + 4 * wl + 3)
    let mDen : ℤ := (den12 : ℤ) * (-4 * wl - 4)
    let m : ℕ := (rustRoundFrac mNum mDen).toNat
    (List.range N).map fun i => if i < m then wl else wu
  else
    List.replicate N 1

/-- The spec's planner algorithm with step 2 amended to what the code
computes (`w_ideal = sqrt(12·σ²/N) + 1`, the `+1` outside the root), and the
spec's step 5 emission: the first `m` entries (clamped to `N`) are `wl`, the
remaining `N − m` are `wu`. -/
def create_box_gauss_amended (N : ℕ) (sigma : ℚ) : List ℤ :=
  if 0 < sigma then
    let num12 : ℕ := (12 * sigma.num * sigma.num).toNat
    let den12 : ℕ := sigma.den * sigma.den
    let D : ℕ := den12 * N
    let wl0 : ℤ := (isqrt (num12 * D) / D : ℕ) + 1
    let wl : ℤ := if wl0 % 2 = 0 then wl0 - 1 else wl0
    let wu : ℤ := wl + 2
    let mNum : ℤ := (num12 : ℤ) - (den12 : ℤ) * N * (wl * wl + 4 * wl + 3)
    let mDen : ℤ := (den12 : ℤ) * (-4 * wl - 4)
    let m : ℕ := (rustRoundFrac mNum mDen).toNat
    List.replicate (min m N) wl ++ List.replicate (N - m) wu
  else
    List.replicate N 1

/-- Modelled from the spec: one horizontal-pass row whose degenerate
short-line correction is computed from `width`, the length of the line being
scanned, as the spec's sliding-window step states.  The only difference from
`horzRow` is the correction multiplier. -/
def horzRowSpecWidth (backbuf : List (List ℕ)) (width height r i : ℕ)
    (front : List (List ℕ)) : Option (List (List ℕ)) := do
  let rowStart := i * width
  let rowEnd := wrapIdx ((i : ℤ) * width + width - 1)
  let ti := i * width
  let li := ti
  let ri := ti + r
  let fv ← getPix backbuf rowStart
  let lv ← getPix backbuf rowEnd
  let d : ℤ := 2 * r + 1
  let vals : List ℤ := fv.map fun (c : ℕ) => ((r : ℤ) + 1) * (c : ℤ)
  let vals ← seedLoop backbuf 1 ti (min r width) vals
  let vals :=
    if width < r then
      scaleAddPix vals (usizeAsIsize (wrapIdx ((r : ℤ) - (width : ℤ)))) lv
    else vals
  let s1 ← loopA backbuf fv lv rowEnd d 1 (min width (r + 1)) ⟨vals, ti, li, ri, front⟩
  if r < width then do
    let s2 ← loopB backbuf d 1 ((width - r) - (r + 1)) s1
    let s3 ← loopC backbuf fv lv rowStart d 1 (min (width - r - 1) r) s2
    return s3.front
  else
    return s1.front

/-- Modelled from the spec: the horizontal pass built from
`horzRowSpecWidth` (width-based short-line correction). -/
def boxBlurHorzSpecWidth (backbuf frontbuf : List (List ℕ)) (width height r : ℕ) :
    Option (List (List ℕ)) :=
  if r = 0 then
    if frontbuf.length = backbuf.length then some backbuf else none
  else
    (List.range height).foldlM
      (fun front i => horzRowSpecWidth backbuf width height r i front) frontbuf

/-! ## Helper lemmas -/

theorem zipWith_replicate_same {α β γ : Type} (f : α → β → γ) (n : ℕ) (a : α) (b : β) :
    List.zipWith f (List.replicate n a) (List.replicate n b) = List.replicate n (f a b) := by
  induction n with
  | zero => rfl
  | succ k ih => simp [List.replicate_succ, ih]

theorem set_replicate_self {α : Type} (n i : ℕ) (a : α) :
    (List.replicate n a).set i a = List.replicate n a := by
  induction n generalizing i with
  | zero => rfl
  | succ k ih =>
    cases i with
    | zero => simp [List.replicate_succ]
    | succ j => simp [List.replicate_succ, ih]

theorem getPix_replicate (n i : ℕ) (p : List ℕ) (h : i < n) :
    getPix (List.replicate n p) i = some p := by
  simp [getPix, List.getElem?_replicate, h]

theorem setPix_replicate (n i : ℕ) (p : List ℕ) (h : i < n) :
    setPix (List.replicate n p) i p = some (List.replicate n p) := by
  simp [setPix, h, set_replicate_self]

theorem getRightPix_replicate (n lineEnd i : ℕ) (p : List ℕ) (h : lineEnd < n) :
    getRightPix (List.replicate n p) p lineEnd i = some p := by
  unfold getRightPix
  by_cases hc : lineEnd < i
  · simp [hc]
  · simp [hc, getPix_replicate n i p (by omega)]

theorem getLeftPix_replicate (n lineStart i : ℕ) (p : List ℕ) (h : i < n) :
    getLeftPix (List.replicate n p) p lineStart i = some p := by
  unfold getLeftPix
  by_cases hc : i < lineStart
  · simp [hc]
  · simp [hc, getPix_replicate n i p h]

theorem addPix_replicate (n : ℕ) (a : ℤ) (v : ℕ) :
    addPix (List.replicate n a) (List.replicate n v) = List.replicate n (a + v) := by
  unfold addPix
  exact zipWith_replicate_same _ n a v

theorem subPix_replicate (n : ℕ) (a : ℤ) (v : ℕ) :
    subPix (List.replicate n a) (List.replicate n v) = List.replicate n (a - v) := by
  unfold subPix
  exact zipWith_replicate_same _ n a v

theorem scaleAddPix_replicate (n : ℕ) (a k : ℤ) (v : ℕ) :
    scaleAddPix (List.replicate n a) k (List.replicate n v) =
      List.replicate n (a + k * v) := by
  unfold scaleAddPix
  exact zipWith_replicate_same _ n a v

theorem outPix_replicate (d : ℤ) (n : ℕ) (a : ℤ) :
    outPix d (List.replicate n a) = List.replicate n (toU8 (roundHalfEvenDiv a d)) := by
  simp [outPix]

theorem roundHalfEvenDiv_mul_self (v d : ℤ) (hd : 0 < d) :
    roundHalfEvenDiv (d * v) d = v := by
  unfold roundHalfEvenDiv
  rw [Int.mul_ediv_cancel_left v (by omega), Int.mul_emod_right]
  simp [hd]

theorem toU8_coe (v : ℕ) (h : v ≤ 255) : toU8 (v : ℤ) = v := by
  unfold toU8
  omega

theorem outPix_steady (r v CH : ℕ) (hv : v ≤ 255) :
    outPix (2 * r + 1) (List.replicate CH ((2 * (r : ℤ) + 1) * v)) =
      List.replicate CH v := by
  rw [outPix_replicate, roundHalfEvenDiv_mul_self _ _ (by omega), toU8_coe v hv]

theorem wrapIdx_small (n : ℤ) (h0 : 0 ≤ n) (h1 : n < 2 ^ 64) : (wrapIdx n : ℤ) = n := by
  unfold wrapIdx
  rw [Int.emod_eq_of_lt h0 h1]
  omega

theorem usizeAsIsize_wrap_sub (r h : ℕ) (hlt : h < r) (hr : r < 2 ^ 63) :
    usizeAsIsize (wrapIdx ((r : ℤ) - (h : ℤ))) = (r : ℤ) - (h : ℤ) := by
  have hw : (wrapIdx ((r : ℤ) - (h : ℤ)) : ℤ) = (r : ℤ) - (h : ℤ) :=
    wrapIdx_small _ (by omega) (by omega)
  unfold usizeAsIsize
  rw [if_pos (by omega)]
  exact hw

/-- Pointwise form of zipping a mapped copy of a list with the list itself. -/
theorem zipWith_map_left_self {α β γ : Type} (f : β → α → γ) (g : α → β) (p : List α) :
    List.zipWith f (p.map g) p = p.map fun c => f (g c) c := by
  induction p with
  | nil => rfl
  | cons c t ih => simp [ih]

/-- `vals += p` on channel sums that are a common multiple of the pixel `p`. -/
theorem addPix_map (a : ℤ) (p : List ℕ) :
    addPix (p.map fun c : ℕ => a * (c : ℤ)) p =
      p.map fun c : ℕ => (a + 1) * (c : ℤ) := by
  unfold addPix
  rw [zipWith_map_left_self]
  have he : (fun c : ℕ => a * (c : ℤ) + (c : ℤ)) = fun c : ℕ => (a + 1) * (c : ℤ) := by
    funext c
    ring
  rw [he]

/-- `vals -= p` on channel sums that are a common multiple of the pixel `p`. -/
theorem subPix_map (a : ℤ) (p : List ℕ) :
    subPix (p.map fun c : ℕ => a * (c : ℤ)) p =
      p.map fun c : ℕ => (a - 1) * (c : ℤ) := by
  unfold subPix
  rw [zipWith_map_left_self]
  have he : (fun c : ℕ => a * (c : ℤ) - (c : ℤ)) = fun c : ℕ => (a - 1) * (c : ℤ) := by
    funext c
    ring
  rw [he]

/-- `vals += k * p` on channel sums that are a common multiple of `p`. -/
theorem scaleAddPix_map (a k : ℤ) (p : List ℕ) :
    scaleAddPix (p.map fun c : ℕ => a * (c : ℤ)) k p =
      p.map fun c : ℕ => (a + k) * (c : ℤ) := by
  unfold scaleAddPix
  rw [zipWith_map_left_self]
  have he : (fun c : ℕ => a * (c : ℤ) + k * (c : ℤ)) =
      fun c : ℕ => (a + k) * (c : ℤ) := by
    funext c
    ring
  rw [he]

theorem outPix_cons (d v : ℤ) (t : List ℤ) :
    outPix d (v :: t) = toU8 (roundHalfEvenDiv v d) :: outPix d t := rfl

/-- With the steady window sum `(2r+1)·p`, the output pixel is `p` itself,
channel by channel, whenever every channel is a `u8` value. -/
theorem outPix_map_steady (r : ℕ) :
    ∀ p : List ℕ, (∀ c ∈ p, c ≤ 255) →
      outPix (2 * r + 1) (p.map fun c : ℕ => (2 * (r : ℤ) + 1) * (c : ℤ)) = p := by
  intro p
  induction p with
  | nil => intro _; rfl
  | cons c t ih =>
    intro hp
    rw [List.map_cons, outPix_cons, roundHalfEvenDiv_mul_self _ _ (by omega),
      toU8_coe c (hp c (by simp)), ih fun x hx => hp x (by simp [hx])]

/-- Seed loop on a constant buffer adds the pixel `p` to the channel sums `n`
times. -/
theorem seedLoop_replicate (L stride : ℕ) (p : List ℕ) :
    ∀ (n idx : ℕ) (a : ℤ),
      (∀ k, k < n → idx + k * stride < L) →
      seedLoop (List.replicate L p) stride idx n (p.map fun c : ℕ => a * (c : ℤ)) =
        some (p.map fun c : ℕ => (a + n) * (c : ℤ)) := by
  intro n
  induction n with
  | zero =>
    intro idx a _
    simp [seedLoop]
  | succ m ih =>
    intro idx a h
    have hidx : idx < L := by simpa using h 0 (by omega)
    rw [seedLoop, getPix_replicate L idx _ hidx]
    simp only [Option.bind_eq_bind, Option.some_bind, addPix_map]
    rw [ih (idx + stride) (a + 1) (by
      intro k hk
      have h2 := h (k + 1) (by omega)
      have h3 : (k + 1) * stride = k * stride + stride := by ring
      omega)]
    have he : (fun c : ℕ => (a + 1 + (m : ℤ)) * (c : ℤ)) =
        fun c : ℕ => (a + ((m + 1 : ℕ) : ℤ)) * (c : ℤ) := by
      funext c
      push_cast
      ring
    rw [he]

/-- `loopA` on a constant buffer with the steady window sum `(2r+1)·p` writes
the pixel `p` everywhere and leaves the buffer and sums unchanged. -/
theorem loopA_replicate (L stride r : ℕ) (p : List ℕ) (lineEnd : ℕ)
    (hp : ∀ c ∈ p, c ≤ 255) (hEnd : lineEnd < L) :
    ∀ (n ti li ri : ℕ),
      (∀ k, k < n → ti + k * stride < L) →
      loopA (List.replicate L p) p p lineEnd (2 * r + 1) stride n
        ⟨p.map fun c : ℕ => (2 * (r : ℤ) + 1) * (c : ℤ), ti, li, ri,
          List.replicate L p⟩ =
      some ⟨p.map fun c : ℕ => (2 * (r : ℤ) + 1) * (c : ℤ), ti + n * stride, li,
        ri + n * stride, List.replicate L p⟩ := by
  intro n
  induction n with
  | zero => intro ti li ri _; simp [loopA]
  | succ m ih =>
    intro ti li ri h
    have hti : ti < L := by simpa using h 0 (by omega)
    rw [loopA, getRightPix_replicate L lineEnd ri _ hEnd]
    simp only [Option.bind_eq_bind, Option.some_bind, addPix_map, subPix_map]
    have he : (fun c : ℕ => (2 * (r : ℤ) + 1 + 1 - 1) * (c : ℤ)) =
        fun c : ℕ => (2 * (r : ℤ) + 1) * (c : ℤ) := by
      funext c
      ring
    rw [he, outPix_map_steady r p hp, setPix_replicate L ti _ hti]
    simp only [Option.some_bind]
    rw [ih (ti + stride) li (ri + stride) (by
      intro k hk
      have h2 := h (k + 1) (by omega)
      have h3 : (k + 1) * stride = k * stride + stride := by ring
      omega)]
    have h1 : ti + stride + m * stride = ti + (m + 1) * stride := by ring
    have h2 : ri + stride + m * stride = ri + (m + 1) * stride := by ring
    rw [h1, h2]

/-- `loopB` on a constant buffer: same invariant, both cursors advance. -/
theorem loopB_replicate (L stride r : ℕ) (p : List ℕ) (hp : ∀ c ∈ p, c ≤ 255) :
    ∀ (n ti li ri : ℕ),
      (∀ k, k < n → ti + k * stride < L ∧ li + k * stride < L ∧ ri + k * stride < L) →
      loopB (List.replicate L p) (2 * r + 1) stride n
        ⟨p.map fun c : ℕ => (2 * (r : ℤ) + 1) * (c : ℤ), ti, li, ri,
          List.replicate L p⟩ =
      some ⟨p.map fun c : ℕ => (2 * (r : ℤ) + 1) * (c : ℤ), ti + n * stride,
        li + n * stride, ri + n * stride, List.replicate L p⟩ := by
  intro n
  induction n with
  | zero => intro ti li ri _; simp [loopB]
  | succ m ih =>
    intro ti li ri h
    obtain ⟨hti, hli, hri⟩ := h 0 (by omega)
    simp only [Nat.zero_mul, Nat.add_zero] at hti hli hri
    rw [loopB, getPix_replicate L ri _ hri]
    simp only [Option.bind_eq_bind, Option.some_bind]
    rw [getPix_replicate L li _ hli]
    simp only [Option.some_bind, addPix_map, subPix_map]
    have he : (fun c : ℕ => (2 * (r : ℤ) + 1 + 1 - 1) * (c : ℤ)) =
        fun c : ℕ => (2 * (r : ℤ) + 1) * (c : ℤ) := by
      funext c
      ring
    rw [he, outPix_map_steady r p hp, setPix_replicate L ti _ hti]
    simp only [Option.some_bind]
    rw [ih (ti + stride) (li + stride) (ri + stride) (by
      intro k hk
      have h2 := h (k + 1) (by omega)
      have h3 : (k + 1) * stride = k * stride + stride := by ring
      omega)]
    have h1 : ti + stride + m * stride = ti + (m + 1) * stride := by ring
    have h2 : li + stride + m * stride = li + (m + 1) * stride := by ring
    have h3 : ri + stride + m * stride = ri + (m + 1) * stride := by ring
    rw [h1, h2, h3]

/-- `loopC` on a constant buffer: same invariant, `ri` is untouched. -/
theorem loopC_replicate (L stride r : ℕ) (p : List ℕ) (lineStart : ℕ)
    (hp : ∀ c ∈ p, c ≤ 255) :
    ∀ (n ti li ri : ℕ),
      (∀ k, k < n → ti + k * stride < L ∧ li + k * stride < L) →
      loopC (List.replicate L p) p p lineStart (2 * r + 1) stride n
        ⟨p.map fun c : ℕ => (2 * (r : ℤ) + 1) * (c : ℤ), ti, li, ri,
          List.replicate L p⟩ =
      some ⟨p.map fun c : ℕ => (2 * (r : ℤ) + 1) * (c : ℤ), ti + n * stride,
        li + n * stride, ri, List.replicate L p⟩ := by
  intro n
  induction n with
  | zero => intro ti li ri _; simp [loopC]
  | succ m ih =>
    intro ti li ri h
    obtain ⟨hti, hli⟩ := h 0 (by omega)
    simp only [Nat.zero_mul, Nat.add_zero] at hti hli
    rw [loopC, getLeftPix_replicate L lineStart li _ hli]
    simp only [Option.bind_eq_bind, Option.some_bind, addPix_map, subPix_map]
    have he : (fun c : ℕ => (2 * (r : ℤ) + 1 + 1 - 1) * (c : ℤ)) =
        fun c : ℕ => (2 * (r : ℤ) + 1) * (c : ℤ) := by
      funext c
      ring
    rw [he, outPix_map_steady r p hp, setPix_replicate L ti _ hti]
    simp only [Option.some_bind]
    rw [ih (ti + stride) (li + stride) ri (by
      intro k hk
      have h2 := h (k + 1) (by omega)
      have h3 : (k + 1) * stride = k * stride + stride := by ring
      omega)]
    have h1 : ti + stride + m * stride = ti + (m + 1) * stride := by ring
    have h2 : li + stride + m * stride = li + (m + 1) * stride := by ring
    rw [h1, h2]

theorem rowIdx_lt (w h i c : ℕ) (hih : i < h) (hcw : c < w) : i * w + c < w * h := by
  have h1 : (i + 1) * w ≤ h * w := Nat.mul_le_mul_right w (by omega)
  have h2 : (i + 1) * w = i * w + w := by ring
  have h3 : h * w = w * h := by ring
  omega

theorem colIdx_lt (w h' i c : ℕ) (hiw : i < w) (hc : c ≤ h') : i + c * w < w * (h' + 1) := by
  have h1 : c * w ≤ h' * w := Nat.mul_le_mul_right w hc
  have h2 : w * (h' + 1) = h' * w + w := by ring
  omega

theorem wrapIdx_ofNat (m : ℕ) (h1 : (m : ℤ) < 2 ^ 64) : wrapIdx (m : ℤ) = m := by
  have := wrapIdx_small (m : ℤ) (by omega) h1
  omega

/-- A horizontal pass row on a constant buffer rewrites the row with the same
constant pixel, provided the radius does not exceed the width (so that the
buggy `blur_radius > width` branch is not taken). -/
theorem horzRow_replicate (w h r i : ℕ) (p : List ℕ) (hr : 1 ≤ r) (hrw : r ≤ w)
    (hih : i < h) (hsz : w * h < 2 ^ 63) (hp : ∀ c ∈ p, c ≤ 255) :
    horzRow (List.replicate (w * h) p) w h r i (List.replicate (w * h) p) =
      some (List.replicate (w * h) p) := by
  obtain ⟨w', rfl⟩ : ∃ w', w = w' + 1 := ⟨w - 1, by omega⟩
  have hrs : i * (w' + 1) < (w' + 1) * h := by
    simpa using rowIdx_lt (w' + 1) h i 0 hih (by omega)
  have hre : i * (w' + 1) + w' < (w' + 1) * h := rowIdx_lt (w' + 1) h i w' hih (by omega)
  simp only [horzRow]
  rw [show ((i : ℤ) * (((w' + 1 : ℕ) : ℤ)) + ((w' + 1 : ℕ) : ℤ) - 1) =
        ((i * (w' + 1) + w' : ℕ) : ℤ) by push_cast; ring]
  rw [wrapIdx_ofNat _ (by exact_mod_cast by omega : ((i * (w' + 1) + w' : ℕ) : ℤ) < 2 ^ 64)]
  rw [getPix_replicate _ _ _ hrs]
  simp only [Option.bind_eq_bind, Option.some_bind]
  rw [getPix_replicate _ _ _ hre]
  simp only [Option.some_bind]
  rw [min_eq_left hrw]
  rw [seedLoop_replicate ((w' + 1) * h) 1 p r (i * (w' + 1)) _ (by
    intro k hk
    have hk1 : k * 1 = k := by ring
    omega)]
  simp only [Option.some_bind]
  rw [if_neg (show ¬ (w' + 1 < r) by omega)]
  have he1 : (fun c : ℕ => ((r : ℤ) + 1 + (r : ℕ)) * (c : ℤ)) =
      fun c : ℕ => (2 * (r : ℤ) + 1) * (c : ℤ) := by
    funext c
    ring
  rw [he1]
  rw [loopA_replicate ((w' + 1) * h) 1 r p (i * (w' + 1) + w') hp hre
    (min (w' + 1) (r + 1)) (i * (w' + 1)) (i * (w' + 1)) (i * (w' + 1) + r) (by
      intro k hk
      have hk1 : k * 1 = k := by ring
      have hkw : k < w' + 1 := by omega
      omega)]
  simp only [Option.some_bind]
  by_cases hcase : r < w' + 1
  · rw [if_pos hcase]
    rw [min_eq_right (show r + 1 ≤ w' + 1 by omega)]
    simp only [Nat.mul_one]
    rw [loopB_replicate ((w' + 1) * h) 1 r p hp ((w' + 1 - r) - (r + 1))
      (i * (w' + 1) + (r + 1)) (i * (w' + 1)) (i * (w' + 1) + r + (r + 1)) (by
        intro k hk
        have hk1 : k * 1 = k := by ring
        omega)]
    simp only [Option.some_bind, Nat.mul_one]
    rw [loopC_replicate ((w' + 1) * h) 1 r p (i * (w' + 1)) hp
      (min (w' + 1 - r - 1) r)
      (i * (w' + 1) + (r + 1) + ((w' + 1 - r) - (r + 1)))
      (i * (w' + 1) + ((w' + 1 - r) - (r + 1)))
      (i * (w' + 1) + r + (r + 1) + ((w' + 1 - r) - (r + 1))) (by
        intro k hk
        have hk1 : k * 1 = k := by ring
        have hkm : k < min (w' + 1 - r - 1) r := hk
        omega)]
    simp only [Option.some_bind, Option.pure_def]
  · rw [if_neg hcase]
    simp only [Option.pure_def]

/-- A vertical pass column on a constant buffer rewrites the column with the
same constant pixel, for every radius (including `radius > height`, whose
correction term here uses the correct line length). -/
theorem vertCol_replicate (w h r i : ℕ) (p : List ℕ) (hr : 1 ≤ r)
    (hr63 : r < 2 ^ 63) (hiw : i < w) (hh : 1 ≤ h) (hsz : w * h < 2 ^ 63)
    (hp : ∀ c ∈ p, c ≤ 255) :
    vertCol (List.replicate (w * h) p) w h r i (List.replicate (w * h) p) =
      some (List.replicate (w * h) p) := by
  obtain ⟨h', rfl⟩ : ∃ h', h = h' + 1 := ⟨h - 1, by omega⟩
  have hcs : i < w * (h' + 1) := by
    simpa using colIdx_lt w h' i 0 hiw (Nat.zero_le h')
  have hce : i + h' * w < w * (h' + 1) := colIdx_lt w h' i h' hiw (le_refl h')
  simp only [vertCol]
  rw [show ((i : ℤ) + (w : ℤ) * (((h' + 1 : ℕ) : ℤ) - 1)) =
        ((i + h' * w : ℕ) : ℤ) by push_cast; ring]
  rw [wrapIdx_ofNat _ (by exact_mod_cast by omega : ((i + h' * w : ℕ) : ℤ) < 2 ^ 64)]
  rw [getPix_replicate _ _ _ hcs]
  simp only [Option.bind_eq_bind, Option.some_bind]
  rw [getPix_replicate _ _ _ hce]
  simp only [Option.some_bind]
  rw [seedLoop_replicate (w * (h' + 1)) w p (min r (h' + 1)) i _ (by
    intro k hk
    exact colIdx_lt w h' i k hiw (by omega))]
  simp only [Option.some_bind]
  by_cases hsh : h' + 1 < r
  · rw [if_pos hsh, usizeAsIsize_wrap_sub r (h' + 1) hsh hr63,
      min_eq_right (show h' + 1 ≤ r by omega), scaleAddPix_map]
    have he2 : (fun c : ℕ => ((r : ℤ) + 1 + ((h' + 1 : ℕ) : ℤ) +
          ((r : ℤ) - ((h' + 1 : ℕ) : ℤ))) * (c : ℤ)) =
        fun c : ℕ => (2 * (r : ℤ) + 1) * (c : ℤ) := by
      funext c
      push_cast
      ring
    rw [he2]
    rw [loopA_replicate (w * (h' + 1)) w r p (i + h' * w) hp hce
      (min (h' + 1) (r + 1)) i i (i + r * w) (by
        intro k hk
        exact colIdx_lt w h' i k hiw (by omega))]
    simp only [Option.some_bind]
    rw [if_neg (show ¬ r < h' + 1 by omega)]
    simp only [Option.pure_def]
  · rw [if_neg hsh, min_eq_left (show r ≤ h' + 1 by omega)]
    have he3 : (fun c : ℕ => ((r : ℤ) + 1 + (r : ℕ)) * (c : ℤ)) =
        fun c : ℕ => (2 * (r : ℤ) + 1) * (c : ℤ) := by
      funext c
      ring
    rw [he3]
    rw [loopA_replicate (w * (h' + 1)) w r p (i + h' * w) hp hce
      (min (h' + 1) (r + 1)) i i (i + r * w) (by
        intro k hk
        exact colIdx_lt w h' i k hiw (by omega))]
    simp only [Option.some_bind]
    by_cases hc2 : r < h' + 1
    · rw [if_pos hc2, min_eq_right (show r + 1 ≤ h' + 1 by omega)]
      rw [loopB_replicate (w * (h' + 1)) w r p hp ((h' + 1 - r) - (r + 1))
        (i + (r + 1) * w) i (i + r * w + (r + 1) * w) (by
          intro k hk
          have e1 : i + (r + 1) * w + k * w = i + (r + 1 + k) * w := by ring
          have e3 : i + r * w + (r + 1) * w + k * w = i + (2 * r + 1 + k) * w := by ring
          refine ⟨?_, ?_, ?_⟩
          · rw [e1]; exact colIdx_lt w h' i (r + 1 + k) hiw (by omega)
          · exact colIdx_lt w h' i k hiw (by omega)
          · rw [e3]; exact colIdx_lt w h' i (2 * r + 1 + k) hiw (by omega))]
      simp only [Option.some_bind]
      rw [loopC_replicate (w * (h' + 1)) w r p i hp (min (h' + 1 - r - 1) r)
        (i + (r + 1) * w + ((h' + 1 - r) - (r + 1)) * w)
        (i + ((h' + 1 - r) - (r + 1)) * w)
        (i + r * w + (r + 1) * w + ((h' + 1 - r) - (r + 1)) * w) (by
          intro k hk
          have e1 : i + (r + 1) * w + ((h' + 1 - r) - (r + 1)) * w + k * w =
              i + (r + 1 + ((h' + 1 - r) - (r + 1)) + k) * w := by ring
          have e2 : i + ((h' + 1 - r) - (r + 1)) * w + k * w =
              i + (((h' + 1 - r) - (r + 1)) + k) * w := by ring
          constructor
          · rw [e1]
            exact colIdx_lt w h' i (r + 1 + ((h' + 1 - r) - (r + 1)) + k) hiw (by omega)
          · rw [e2]
            exact colIdx_lt w h' i (((h' + 1 - r) - (r + 1)) + k) hiw (by omega))]
      simp only [Option.some_bind, Option.pure_def]
    · rw [if_neg hc2]
      simp only [Option.pure_def]

/-- Folding the constant-preserving row action over any list of in-range row
indices returns the constant buffer. -/
theorem foldlM_horzRow_replicate (w h r : ℕ) (p : List ℕ) (hr : 1 ≤ r)
    (hrw : r ≤ w) (hsz : w * h < 2 ^ 63) (hp : ∀ c ∈ p, c ≤ 255) :
    ∀ l : List ℕ, (∀ j ∈ l, j < h) →
      l.foldlM
          (fun front i => horzRow (List.replicate (w * h) p) w h r i front)
          (List.replicate (w * h) p) =
        some (List.replicate (w * h) p) := by
  intro l
  induction l with
  | nil => intro _; rfl
  | cons a t ih =>
    intro hmem
    rw [List.foldlM_cons, horzRow_replicate w h r a p hr hrw (hmem a (by simp)) hsz hp]
    simp only [Option.bind_eq_bind, Option.some_bind]
    exact ih fun j hj => hmem j (by simp [hj])

/-- `box_blur_horz` preserves a constant buffer whenever the radius does not
exceed the width. -/
theorem boxBlurHorz_replicate (w h r : ℕ) (p : List ℕ) (hrw : r ≤ w)
    (hsz : w * h < 2 ^ 63) (hp : ∀ c ∈ p, c ≤ 255) :
    boxBlurHorz (List.replicate (w * h) p) (List.replicate (w * h) p) w h r =
      some (List.replicate (w * h) p) := by
  by_cases hr0 : r = 0
  · simp [boxBlurHorz, hr0]
  · unfold boxBlurHorz
    rw [if_neg hr0]
    exact foldlM_horzRow_replicate w h r p (by omega) hrw hsz hp (List.range h)
      fun j hj => List.mem_range.mp hj

theorem foldlM_vertCol_replicate (w h r : ℕ) (p : List ℕ) (hr : 1 ≤ r)
    (hr63 : r < 2 ^ 63) (hh : 1 ≤ h) (hsz : w * h < 2 ^ 63)
    (hp : ∀ c ∈ p, c ≤ 255) :
    ∀ l : List ℕ, (∀ j ∈ l, j < w) →
      l.foldlM
          (fun front i => vertCol (List.replicate (w * h) p) w h r i front)
          (List.replicate (w * h) p) =
        some (List.replicate (w * h) p) := by
  intro l
  induction l with
  | nil => intro _; rfl
  | cons a t ih =>
    intro hmem
    rw [List.foldlM_cons,
      vertCol_replicate w h r a p hr hr63 (hmem a (by simp)) hh hsz hp]
    simp only [Option.bind_eq_bind, Option.some_bind]
    exact ih fun j hj => hmem j (by simp [hj])

/-- `box_blur_vert` preserves a constant buffer for every radius below the
address-space bound. -/
theorem boxBlurVert_replicate (w h r : ℕ) (p : List ℕ) (hr63 : r < 2 ^ 63)
    (hh : 1 ≤ h) (hsz : w * h < 2 ^ 63) (hp : ∀ c ∈ p, c ≤ 255) :
    boxBlurVert (List.replicate (w * h) p) (List.replicate (w * h) p) w h r =
      some (List.replicate (w * h) p) := by
  by_cases hr0 : r = 0
  · simp [boxBlurVert, hr0]
  · unfold boxBlurVert
    rw [if_neg hr0]
    exact foldlM_vertCol_replicate w h r p (by omega) hr63 hh hsz hp (List.range w)
      fun j hj => List.mem_range.mp hj

/-- The full pass loop preserves a constant buffer pair when every planned
radius is at most the width. -/
theorem blurPasses_replicate (w h : ℕ) (p : List ℕ) (hw : 1 ≤ w) (hh : 1 ≤ h)
    (hsz : w * h < 2 ^ 63) (hp : ∀ c ∈ p, c ≤ 255) :
    ∀ boxes : List ℤ, (∀ b ∈ boxes, ((b - 1) / 2).toNat ≤ w) →
      blurPasses w h boxes
          (List.replicate (w * h) p, List.replicate (w * h) p) =
        some (List.replicate (w * h) p, List.replicate (w * h) p) := by
  intro boxes
  induction boxes with
  | nil => intro _; rfl
  | cons b t ih =>
    intro hb
    have hrw : ((b - 1) / 2).toNat ≤ w := hb b (by simp)
    have hr63 : ((b - 1) / 2).toNat < 2 ^ 63 := by
      have hwh : w ≤ w * h := Nat.le_mul_of_pos_right w (by omega)
      omega
    rw [blurPasses,
      boxBlurHorz_replicate w h (((b - 1) / 2).toNat) p hrw hsz hp]
    simp only [Option.bind_eq_bind, Option.some_bind]
    rw [boxBlurVert_replicate w h (((b - 1) / 2).toNat) p hr63 hh hsz hp]
    simp only [Option.some_bind]
    exact ih fun b' hb' => hb b' (by simp [hb'])

/-- Widths all equal to 1 (radius 0) reduce every pass to the two
`copy_from_slice` fast paths, so the state pair is unchanged. -/
theorem blurPasses_ones (w h : ℕ) (data : List (List ℕ)) :
    ∀ n, blurPasses w h (List.replicate n 1) (data, data) = some (data, data) := by
  intro n
  induction n with
  | zero => rfl
  | succ m ih =>
    rw [List.replicate_succ, blurPasses]
    have hrad : (((1 : ℤ) - 1) / 2).toNat = 0 := by decide
    rw [hrad]
    have hH : boxBlurHorz data data w h 0 = some data := by simp [boxBlurHorz]
    have hV : boxBlurVert data data w h 0 = some data := by simp [boxBlurVert]
    rw [hH]
    simp only [Option.bind_eq_bind, Option.some_bind]
    rw [hV]
    simp only [Option.some_bind]
    exact ih

/-- Running the pass loop over `l1 ++ l2` runs it over `l1`, then over `l2`. -/
theorem blurPasses_append (w h : ℕ) (l1 l2 : List ℤ) :
    ∀ st, blurPasses w h (l1 ++ l2) st =
      (blurPasses w h l1 st).bind (blurPasses w h l2) := by
  induction l1 with
  | nil => intro st; simp [blurPasses]
  | cons b t ih =>
    intro st
    obtain ⟨bb, data⟩ := st
    rw [List.cons_append, blurPasses, blurPasses]
    cases hH : boxBlurHorz bb data w h ((b - 1) / 2).toNat with
    | none => simp
    | some d =>
      cases hV : boxBlurVert d bb w h ((b - 1) / 2).toNat with
      | none => simp [hV]
      | some bb' => simp [hV, ih]

/-- Emission of the planner loop as the replicate form of the spec. -/
theorem range_map_ite (N m : ℕ) (a b : ℤ) :
    (List.range N).map (fun i => if i < m then a else b) =
      List.replicate (min m N) a ++ List.replicate (N - m) b := by
  induction N with
  | zero => simp
  | succ n ih =>
    rw [List.range_succ, List.map_append, ih, List.map_singleton]
    by_cases hc : n < m
    · rw [if_pos hc, min_eq_right (show n ≤ m by omega),
        min_eq_right (show n + 1 ≤ m by omega),
        show n - m = 0 by omega, show n + 1 - m = 0 by omega]
      simp [List.replicate_succ']
    · rw [if_neg hc, min_eq_left (show m ≤ n by omega),
        min_eq_left (show m ≤ n + 1 by omega),
        show n + 1 - m = (n - m) + 1 by omega]
      simp [List.replicate_succ']

/-- The even-width decrement yields an odd width and preserves positivity. -/
theorem parity_fix (z : ℤ) (hz : 1 ≤ z) :
    Odd (if z % 2 = 0 then z - 1 else z) ∧
      1 ≤ (if z % 2 = 0 then z - 1 else z) := by
  by_cases hp : z % 2 = 0
  · rw [if_pos hp]
    exact ⟨Int.odd_iff.mpr (by omega), by omega⟩
  · rw [if_neg hp]
    exact ⟨Int.odd_iff.mpr (by omega), hz⟩

/-- For `σ ≤ 0` the planner emits all widths 1 and the blur is the identity. -/
theorem gaussianBlur_nonpos (CH w h : ℕ) (data : List (List ℕ)) (sigma : ℚ)
    (hσ : ¬ 0 < sigma) : gaussianBlur CH data w h sigma = some data := by
  simp only [gaussianBlur, create_box_gauss, if_neg hσ]
  rw [blurPasses_ones w h data CH]
  rfl

/-! ## Claim theorems -/

/-- Claim C1: the spec states that after `gaussian_blur` returns, the caller's
buffer holds the final result of all N complete horizontal+vertical passes.
The code contradicts this: at the 1×2 single-channel buffer `[[0],[255]]` with
`σ = 1` (plan `[3]`, radius 1) the call returns the caller's buffer unchanged
(`[[0],[255]]` — only the horizontal pass, an identity at width 1, was written
to it), while the complete horizontal+vertical pass of that input is
`[[85],[170]]`, which `box_blur_vert` writes only into the scratch buffer that
is dropped on return. -/
theorem c1_final_vertical_pass_discarded :
    gaussianBlur 1 [[0], [255]] 1 2 1 = some [[0], [255]] ∧
      (do
        let d ← boxBlurHorz [[0], [255]] [[0], [255]] 1 2 1
        boxBlurVert d [[0], [255]] 1 2 1) = some [[85], [170]] :=
  ⟨by decide, by decide⟩

/-- Claim C2: the spec's sliding-window step says the degenerate short-line
correction in the horizontal pass is `(radius − length)·lastValue` with
`length = width`.  The code (line 261) uses `height` instead: on a 1×5
constant-255 single-channel buffer with radius 2 the code produces 51 in
every pixel, while the width-based correction of the spec produces 255
(identity on a constant row), as `boxBlurHorzSpecWidth` shows. -/
theorem c2_short_line_correction_uses_height :
    boxBlurHorz (List.replicate 5 [255]) (List.replicate 5 [0]) 1 5 2 =
        some (List.replicate 5 [51]) ∧
      boxBlurHorzSpecWidth (List.replicate 5 [255]) (List.replicate 5 [0]) 1 5 2 =
        some (List.replicate 5 [255]) :=
  ⟨by decide, by decide⟩

/-- Claim C3, counterexample: the planner does not compute
`w_ideal = sqrt(12·σ²/N + 1)`.  At `σ = 1`, `N = 3` the code emits `[3,3,3]`
(from `sqrt(4) + 1 = 3`), while the claimed formula prescribes `[1,1,3]`
(from `sqrt(5) ≈ 2.24`, floored to 2, decremented to 1). -/
theorem c3_counterexample :
    create_box_gauss 3 1 = [3, 3, 3] ∧
      create_box_gauss_claimC3 3 1 = [1, 1, 3] ∧
      create_box_gauss 3 1 ≠ create_box_gauss_claimC3 3 1 :=
  ⟨by decide, by decide, by decide⟩

/-- Claim C3, amended: the planner computes `w_ideal = sqrt(12·σ²/N) + 1`
(the `+1` outside the square root); with that correction the emitted widths
are exactly those the spec's five steps prescribe, for every `σ` and `N`. -/
theorem c3_amended_planner (N : ℕ) (sigma : ℚ) :
    create_box_gauss N sigma = create_box_gauss_amended N sigma := by
  by_cases hσ : 0 < sigma
  · simp only [create_box_gauss, create_box_gauss_amended, if_pos hσ]
    exact range_map_ite N _ _ _
  · simp only [create_box_gauss, create_box_gauss_amended, if_neg hσ]

/-- Claim C4: for `σ ≤ 0` the planner emits all widths 1 (radius 0), every
pass is an exact copy, and `gaussian_blur` leaves the caller's buffer
byte-for-byte unchanged. -/
theorem c4_sigma_nonpos_identity (CH w h : ℕ) (data : List (List ℕ)) (sigma : ℚ)
    (hlen : data.length = w * h) (hσ : sigma ≤ 0) :
    gaussianBlur CH data w h sigma = some data :=
  gaussianBlur_nonpos CH w h data sigma (not_lt.mpr hσ)

theorem c4_sigma_nonpos_identity_witness :
    ([[1], [2]] : List (List ℕ)).length = 2 * 1 ∧ (0 : ℚ) ≤ 0 ∧
      gaussianBlur 1 [[1], [2]] 2 1 0 = some [[1], [2]] :=
  ⟨by decide, by decide,
    c4_sigma_nonpos_identity 1 2 1 [[1], [2]] 0 (by decide) (by decide)⟩

/-- Claim C5, counterexample: a constant buffer is NOT preserved for every σ.
On the 1×2 constant-255 buffer with `σ = 2` the plan is `[7]` (radius 3 >
width 1), the buggy height-based short-line correction fires, and the result
is the constant 219, not 255. -/
theorem c5_counterexample :
    gaussianBlur 1 [[255], [255]] 1 2 2 ≠ some [[255], [255]] ∧
      gaussianBlur 1 [[255], [255]] 1 2 2 = some [[219], [219]] :=
  ⟨by decide, by decide⟩

/-- Claim C5, amended: for every constant-color buffer — every pixel equal to
one fixed pixel `p`, with arbitrary distinct per-channel values in `u8`
range — with positive dimensions, buffer within Rust's allocation bound, and
every `σ` whose planned radii do not exceed the width, `gaussian_blur`
returns exactly the same constant buffer: constancy is invariant under every
horizontal and vertical pass (for the vertical pass at every radius,
including radius > height). -/
theorem c5_constant_buffer_invariant (CH w h : ℕ) (p : List ℕ) (sigma : ℚ)
    (hw : 1 ≤ w) (hh : 1 ≤ h) (hsz : w * h < 2 ^ 63) (hp : ∀ c ∈ p, c ≤ 255)
    (hrad : ∀ b ∈ create_box_gauss CH sigma, ((b - 1) / 2).toNat ≤ w) :
    gaussianBlur CH (List.replicate (w * h) p) w h sigma =
      some (List.replicate (w * h) p) := by
  simp only [gaussianBlur]
  rw [blurPasses_replicate w h p hw hh hsz hp (create_box_gauss CH sigma) hrad]
  rfl

theorem c5_constant_buffer_invariant_witness :
    (1 ≤ 2 ∧ (2 * 2 : ℕ) < 2 ^ 63 ∧ (∀ c ∈ [200, 10, 30], c ≤ 255) ∧
        ∀ b ∈ create_box_gauss 3 1, ((b - 1) / 2).toNat ≤ 2) ∧
      gaussianBlur 3 (List.replicate (2 * 2) [200, 10, 30]) 2 2 1 =
        some (List.replicate (2 * 2) [200, 10, 30]) :=
  ⟨⟨by decide, by decide, by decide, by decide⟩,
    c5_constant_buffer_invariant 3 2 2 [200, 10, 30] 1 (by decide) (by decide)
      (by decide) (by decide) (by decide)⟩

/-- Claim C6: the spec defines width = 0 or height = 0 as a no-op.  The code
only survives the doubly-degenerate case: with `width = 0, height = 1` the
horizontal pass computes `row_end = 0·0 + 0 − 1` (a wrapping `usize`
underflow) and dereferences the empty buffer out of bounds (the `none`
branch of the embedding; undefined behaviour in release Rust, a panic in
debug); with `width = 1, height = 0` the vertical pass fails the same way;
only `width = height = 0` is an actual no-op. -/
theorem c6_degenerate_dims_out_of_bounds :
    gaussianBlur 1 [] 0 1 1 = none ∧ gaussianBlur 1 [] 1 0 1 = none ∧
      gaussianBlur 1 [] 0 0 1 = some [] :=
  ⟨by decide, by decide, by decide⟩

/-- Claim C7, counterexample: a negative σ is NOT rejected as an
invalid-argument condition — there is no error surface at all.  At `σ = −1`
the call completes normally (taking the `σ ≤ 0` planner branch) and returns
the buffer unchanged. -/
theorem c7_counterexample : gaussianBlur 1 [[7]] 1 1 (-1) = some [[7]] := by
  decide

/-- Claim C7, amended: a negative σ is accepted, not rejected: the planner
treats it exactly like σ = 0 (all widths 1), every pass is a copy, and the
caller's buffer is returned untouched. -/
theorem c7_negative_sigma_accepted_as_identity (CH w h : ℕ)
    (data : List (List ℕ)) (sigma : ℚ) (hσ : sigma < 0) :
    gaussianBlur CH data w h sigma = some data :=
  gaussianBlur_nonpos CH w h data sigma (by exact not_lt.mpr (le_of_lt hσ))

theorem c7_negative_sigma_accepted_as_identity_witness :
    (-2 : ℚ) < 0 ∧ gaussianBlur 1 [[3], [4]] 1 2 (-2) = some [[3], [4]] :=
  ⟨by decide, c7_negative_sigma_accepted_as_identity 1 1 2 [[3], [4]] (-2) (by decide)⟩

/-- Claim C8: for every σ > 0 every width emitted by the planner is an odd
integer ≥ 1 (`wl = ⌊√(12σ²/N)⌋ + 1 ≥ 1`, decremented only when even, and
`wu = wl + 2`). -/
theorem c8_plan_widths_odd_ge_one (N : ℕ) (sigma : ℚ) (hσ : 0 < sigma) :
    ∀ b ∈ create_box_gauss N sigma, Odd b ∧ 1 ≤ b := by
  intro b hb
  unfold create_box_gauss at hb
  rw [if_pos hσ] at hb
  simp only [List.mem_map, List.mem_range] at hb
  obtain ⟨j, hjN, hbe⟩ := hb
  have hK0 : (0 : ℤ) ≤
      ((isqrt ((12 * sigma.num * sigma.num).toNat * (sigma.den * sigma.den * N)) /
        (sigma.den * sigma.den * N) : ℕ) : ℤ) :=
    Int.ofNat_nonneg _
  generalize hKe : ((isqrt ((12 * sigma.num * sigma.num).toNat *
      (sigma.den * sigma.den * N)) / (sigma.den * sigma.den * N) : ℕ) : ℤ) = K
    at hbe hK0
  rcases ite_eq_iff.mp hbe with ⟨_, rfl⟩ | ⟨_, rfl⟩
  · exact parity_fix (K + 1) (by omega)
  · obtain ⟨hodd, hge⟩ := parity_fix (K + 1) (by omega)
    have hm := Int.odd_iff.mp hodd
    exact ⟨Int.odd_iff.mpr (by omega), by omega⟩

theorem c8_plan_widths_odd_ge_one_witness :
    (0 : ℚ) < 1 ∧ ∀ b ∈ create_box_gauss 3 1, Odd b ∧ 1 ≤ b :=
  ⟨by decide, c8_plan_widths_odd_ge_one 3 1 (by decide)⟩

/-- Claim C9, counterexample: the spec's golden value is wrong.  One
horizontal box-blur pass with radius 1 on the 3×1 single-channel buffer
`[0, 255, 0]` does not yield `[170, 85, 170]`. -/
theorem c9_counterexample :
    boxBlurHorz [[0], [255], [0]] [[0], [0], [0]] 3 1 1 ≠
      some [[170], [85], [170]] := by
  decide

/-- Claim C9, amended: the pass yields `[85, 85, 85]` — every window
(edge-replicated) contains the values `{0, 255, 0}` summing to 255, and
`round(255/3) = 85`. -/
theorem c9_golden_value :
    boxBlurHorz [[0], [255], [0]] [[0], [0], [0]] 3 1 1 =
      some [[85], [85], [85]] := by
  decide

/-- Claim C10: when the plan is `init ++ [b]`, the caller's buffer returned
by `gaussian_blur` is the horizontal pass of the last width applied to the
state after the first N−1 complete passes; the final vertical pass must
succeed but its output (written to the scratch buffer) is discarded. -/
theorem c10_caller_buffer_is_last_horizontal (CH w h : ℕ)
    (data : List (List ℕ)) (sigma : ℚ) (init : List ℤ) (b : ℤ)
    (hplan : create_box_gauss CH sigma = init ++ [b]) :
    gaussianBlur CH data w h sigma =
      (blurPasses w h init (data, data)).bind fun st =>
        (boxBlurHorz st.1 st.2 w h ((b - 1) / 2).toNat).bind fun d =>
          (boxBlurVert d st.1 w h ((b - 1) / 2).toNat).bind fun _ => some d := by
  simp only [gaussianBlur]
  rw [hplan, blurPasses_append]
  cases hI : blurPasses w h init (data, data) with
  | none => rfl
  | some st =>
    obtain ⟨bb, dt⟩ := st
    simp only [Option.bind_eq_bind, Option.some_bind]
    rw [blurPasses]
    cases hH : boxBlurHorz bb dt w h ((b - 1) / 2).toNat with
    | none => simp
    | some d =>
      simp only [Option.bind_eq_bind, Option.some_bind]
      cases hV : boxBlurVert d bb w h ((b - 1) / 2).toNat with
      | none => simp
      | some bb2 => simp [blurPasses]

theorem c10_caller_buffer_is_last_horizontal_witness :
    create_box_gauss 1 1 = [] ++ [3] ∧
      gaussianBlur 1 [[0], [255]] 1 2 1 =
        (blurPasses 1 2 [] ([[0], [255]], [[0], [255]])).bind fun st =>
          (boxBlurHorz st.1 st.2 1 2 (((3 : ℤ) - 1) / 2).toNat).bind fun d =>
            (boxBlurVert d st.1 1 2 (((3 : ℤ) - 1) / 2).toNat).bind fun _ => some d :=
  ⟨by decide,
    c10_caller_buffer_is_last_horizontal 1 1 2 [[0], [255]] 1 [] 3 (by decide)⟩
